import Mathlib

set_option maxHeartbeats 1000000

namespace Ppsh

/-- Strict lexicographic order on strings modelled as lists of characters.
This is the order Rust uses to compare `String`s (byte-wise comparison of
UTF-8, which agrees with code-point order), and hence the iteration order
of the `BTreeSet<String>` holding the directory entries. -/
def ltStr : List Char → List Char → Bool
  | [], [] => false
  | [], _ :: _ => true
  | _ :: _, [] => false
  | c :: cs, d :: ds => if c < d then true else if d < c then false else ltStr cs ds

/-- Key events consumed by `update` (the `termion::event::Key` variants the
program distinguishes; every remaining variant behaves like `other`). -/
inductive MKey where
  | char (c : Char)
  | left
  | right
  | backspace
  | other
deriving DecidableEq

/-- The `Position` struct: `x` and `y` are `u16` in the source; we keep them
as naturals and apply `% 2 ^ 16` exactly where the source's `u16` arithmetic
wraps. -/
structure Position where
  x : Nat
  y : Nat
deriving DecidableEq

/-- `Position::origin()`. -/
def Position.origin : Position := ⟨0, 0⟩

/-- The `Readline` model: cursor position, line buffer, the ordered set of
directory entries (represented by its ascending, duplicate-free element
list) and the active suggestion. -/
structure Readline where
  cursor_pos : Position
  buffer : List Char
  dir_entries : List (List Char)
  suggestion : Option (List Char)
deriving DecidableEq

/-- Truncating cast to `u16` (`as u16` in the source). -/
def w16 (n : Nat) : Nat := n % 65536

/-- Wrapping `u16` decrement: the release-mode semantics of `x -= 1` on a
`u16`. For `0 < x < 2 ^ 16` this is ordinary subtraction; at `x = 0` it
wraps to `65535`. -/
def wdec (x : Nat) : Nat := (x + 65535) % 65536

/-- `self.dir_entries.range(&self.buffer ..)`: the entries `≥ b`, in
ascending order (on an ascending entry list, the `filter` keeps exactly the
tail segment the range query iterates over). -/
def rangeFrom (entries : List (List Char)) (b : List Char) : List (List Char) :=
  entries.filter (fun e => !ltStr e b)

/-- The lookup inside `Readline::update_suggestion`:
`range(buffer..).filter(|s| s.starts_with(buffer)).next().cloned()`. -/
def lookupRange (entries : List (List Char)) (b : List Char) : Option (List Char) :=
  ((rangeFrom entries b).filter (fun e => b.isPrefixOf e)).head?

/-- `Readline::update_suggestion` (src/main.rs lines 133-153): clear the
suggestion on an empty buffer; keep a suggestion that still starts with the
buffer; otherwise run the range query. -/
def Readline.update_suggestion (m : Readline) : Readline :=
  if m.buffer.isEmpty then { m with suggestion := none }
  else
    match m.suggestion with
    | some s =>
        if m.buffer.isPrefixOf s then m
        else { m with suggestion := lookupRange m.dir_entries m.buffer }
    | none => { m with suggestion := lookupRange m.dir_entries m.buffer }

/-- The `update` transition function (src/main.rs lines 185-218).
`Key::Char('\n')` submits; any other character is appended at the end of
the buffer; `Left`/`Right` move inside the guards; `Backspace` has an
at-end branch (`pop`) and a mid-line branch (`remove`). Cursor arithmetic
is `u16` arithmetic, so increments and decrements wrap modulo `2 ^ 16` and
length comparisons read the buffer length through the `as u16` cast. -/
def update (m : Readline) (k : MKey) : Readline × Option (List Char) :=
  match k with
  | .char c =>
      if c = '\n' then
        ({ m with cursor_pos := Position.origin, buffer := [] }, some m.buffer)
      else
        (Readline.update_suggestion
          { m with buffer := m.buffer ++ [c],
                   cursor_pos := { m.cursor_pos with x := w16 (m.cursor_pos.x + 1) } },
         none)
  | .left =>
      if 0 < m.cursor_pos.x then
        ({ m with cursor_pos := { m.cursor_pos with x := wdec m.cursor_pos.x } }, none)
      else (m, none)
  | .right =>
      if m.cursor_pos.x < w16 m.buffer.length then
        ({ m with cursor_pos := { m.cursor_pos with x := w16 (m.cursor_pos.x + 1) } }, none)
      else (m, none)
  | .backspace =>
      if m.cursor_pos.x = w16 m.buffer.length then
        if m.buffer.isEmpty then (m, none)
        else
          (Readline.update_suggestion
            { m with buffer := m.buffer.dropLast,
                     cursor_pos := { m.cursor_pos with x := wdec m.cursor_pos.x } },
           none)
      else if 0 < m.cursor_pos.x && !m.buffer.isEmpty then
        (Readline.update_suggestion
          { m with cursor_pos := { m.cursor_pos with x := wdec m.cursor_pos.x },
                   buffer := m.buffer.eraseIdx (wdec m.cursor_pos.x) },
         none)
      else (m, none)
  | .other => (m, none)

/-- `Readline::default()` with the directory scan abstracted into the
`entries` parameter: empty buffer, cursor at the origin, no suggestion. -/
def initModel (entries : List (List Char)) : Readline :=
  { cursor_pos := Position.origin, buffer := [], dir_entries := entries, suggestion := none }

/-- The model reached from `Readline::default()` after a list of key
events. -/
def steps (entries : List (List Char)) (evs : List MKey) : Readline :=
  evs.foldl (fun m k => (update m k).1) (initModel entries)

/-- The displayed line length used by `Readline::render`: the suggestion's
length when a suggestion is shown, else the buffer's length. -/
def displayedLen (m : Readline) : Nat :=
  match m.suggestion with
  | some s => s.length
  | none => m.buffer.length

/-- The `cursor_back` amount of `Readline::render` (lines 165-176): the
displayed length is cast `as u16` and the cursor column is subtracted with
`u16` wrapping semantics. -/
def cursor_back (m : Readline) : Nat :=
  (w16 (displayedLen m) + 65536 - m.cursor_pos.x) % 65536

/-- The cursor move emitted by `render`: `cursor::Left(cursor_back)` is
written only when `cursor_back > 0`. -/
def renderMove (m : Readline) : Option Nat :=
  if 0 < cursor_back m then some (cursor_back m) else none

/-- Modelled from the spec (section 4.2 rationale): the naive linear scan
returning the lexicographically smallest entry that starts with the buffer,
used as the reference for the range-query refinement claim. -/
def naiveSmallestMatch (entries : List (List Char)) (b : List Char) : Option (List Char) :=
  match entries with
  | [] => none
  | e :: rest =>
      let r := naiveSmallestMatch rest b
      if b.isPrefixOf e then
        match r with
        | none => some e
        | some m => if ltStr e m then some e else some m
      else r

/-- Helper for `splitWhitespace`: `acc` holds the characters of the current
token in reverse. -/
def splitWsAux : List Char → List Char → List (List Char)
  | [], acc => if acc.isEmpty then [] else [acc.reverse]
  | c :: rest, acc =>
      if c.isWhitespace then
        if acc.isEmpty then splitWsAux rest []
        else acc.reverse :: splitWsAux rest []
      else splitWsAux rest (c :: acc)

/-- Rust's `str::split_whitespace`: the maximal whitespace-free runs of the
line, in order, with empty runs skipped. -/
def splitWhitespace (s : List Char) : List (List Char) :=
  splitWsAux s []

/-- The captured output of a finished subprocess (`std::process::Output`,
restricted to the fields the loop reads). -/
structure ProcOutput where
  stdout : List Char
  stderr : List Char
deriving DecidableEq

/-- One write the run loop performs on the terminal after a submit: plain
text, error-styled text, or the `cursor::Save` marker. -/
inductive TermWrite where
  | text (s : List Char)
  | styledErr (s : List Char)
  | saveCursor
deriving DecidableEq

/-- `str::replace('\n', "\r\n")` applied to captured output before it is
echoed. -/
def crlfNormalize (s : List Char) : List Char :=
  s.flatMap (fun c => if c = '\n' then ['\r', '\n'] else [c])

/-- The submitted-line handling of `ModelVieUpdate::run` (src/main.rs lines
71-96), with the process runner abstracted as an oracle from a command
token and arguments to an optional captured output (`none` models
`Command::output()` returning `Err`, i.e. a command that cannot be located
or executed). The line is split on whitespace; the first token is the
command and the rest are its arguments; when no token exists or the runner
fails, the raw line is echoed between `"\r\n"`s followed by the
`cursor::Save` marker. -/
def handleSubmit (runner : List Char → List (List Char) → Option ProcOutput)
    (input : List Char) : List TermWrite :=
  let tok := splitWhitespace input
  match tok.head?.map (fun c => runner c tok.tail) with
  | some (some out) =>
      (if !out.stdout.isEmpty then
        [TermWrite.text (['\r', '\n'] ++ crlfNormalize out.stdout)]
      else [])
      ++ (if !out.stderr.isEmpty then
        [TermWrite.styledErr (['\r', '\n'] ++ crlfNormalize out.stderr)]
      else [])
      ++ [TermWrite.text ['\r', '\n'], TermWrite.saveCursor]
  | _ => [TermWrite.text (['\r', '\n'] ++ input ++ ['\r', '\n']), TermWrite.saveCursor]

/-- The suggestion invariant: whenever a suggestion is present, the current
buffer is a prefix of it (what keeps `&suggestion[self.buffer.len()..]` in
`render` in bounds). -/
def Inv (m : Readline) : Prop :=
  ∀ s, m.suggestion = some s → m.buffer.isPrefixOf s = true

theorem ltStr_irrefl (a : List Char) : ltStr a a = false := by
  induction a with
  | nil => rfl
  | cons c cs ih => simp [ltStr, ih, lt_irrefl]

theorem ltStr_asymm : ∀ {a b : List Char}, ltStr a b = true → ltStr b a = false
  | [], [], h => by simp [ltStr] at h
  | [], _ :: _, _ => rfl
  | _ :: _, [], h => by simp [ltStr] at h
  | c :: cs, d :: ds, h => by
    simp only [ltStr] at h ⊢
    rcases lt_trichotomy c d with hcd | hcd | hcd
    · have hdc : ¬d < c := asymm hcd
      simp [hcd, hdc]
    · subst hcd
      simp only [lt_irrefl, if_false] at h ⊢
      exact ltStr_asymm h
    · have hcd' : ¬c < d := asymm hcd
      simp [hcd, hcd'] at h

theorem prefix_not_ltStr : ∀ {b e : List Char}, b.isPrefixOf e = true → ltStr e b = false
  | [], [], _ => rfl
  | [], _ :: _, _ => rfl
  | _ :: _, [], h => by simp [List.isPrefixOf] at h
  | c :: cs, d :: ds, h => by
    simp only [List.isPrefixOf, Bool.and_eq_true, beq_iff_eq] at h
    obtain ⟨rfl, h2⟩ := h
    simp [ltStr, lt_irrefl, prefix_not_ltStr h2]

theorem prefix_proper_ltStr : ∀ {b m : List Char}, b.isPrefixOf m = true → b ≠ m →
    ltStr b m = true
  | [], [], _, hne => absurd rfl hne
  | [], _ :: _, _, _ => rfl
  | _ :: _, [], h, _ => by simp [List.isPrefixOf] at h
  | c :: cs, d :: ds, h, hne => by
    simp only [List.isPrefixOf, Bool.and_eq_true, beq_iff_eq] at h
    obtain ⟨rfl, h2⟩ := h
    have hne' : cs ≠ ds := fun hh => hne (by rw [hh])
    simp [ltStr, lt_irrefl, prefix_proper_ltStr h2 hne']

theorem lex_key : ∀ {b s t : List Char}, b.isPrefixOf s = true → ltStr t b = false →
    b.isPrefixOf t = false → ltStr s t = true
  | [], _, _, _, _, hpt => by simp [List.isPrefixOf] at hpt
  | _ :: _, _, [], _, hlt, _ => by simp [ltStr] at hlt
  | _ :: _, [], _, hps, _, _ => by simp [List.isPrefixOf] at hps
  | c :: cs, a :: as, d :: ds, hps, hlt, hpt => by
    simp only [List.isPrefixOf, Bool.and_eq_true, beq_iff_eq] at hps
    obtain ⟨rfl, hps2⟩ := hps
    simp only [ltStr] at hlt ⊢
    rcases lt_trichotomy c d with hcd | hcd | hcd
    · simp [hcd]
    · subst hcd
      simp only [lt_irrefl, if_false] at hlt ⊢
      simp only [List.isPrefixOf, beq_self_eq_true, Bool.true_and] at hpt
      exact lex_key hps2 hlt hpt
    · have : ¬c < d := asymm hcd
      simp [hcd, this] at hlt

theorem head?_some_mem {α : Type} : ∀ {l : List α} {a : α}, l.head? = some a → a ∈ l
  | x :: xs, a, h => by
    simp only [List.head?_cons, Option.some_inj] at h
    exact h ▸ List.mem_cons_self x xs

theorem head?_filter_pred {α : Type} {p : α → Bool} :
    ∀ {l : List α} {a : α}, (l.filter p).head? = some a → p a = true := by
  intro l a h
  exact (List.mem_filter.mp (head?_some_mem h)).2

theorem head?_filter_strengthen {α : Type} {p q : α → Bool}
    (himp : ∀ x, q x = true → p x = true) :
    ∀ {l : List α} {m : α}, (l.filter p).head? = some m → q m = true →
      (l.filter q).head? = some m := by
  intro l
  induction l with
  | nil => intro m h _; simp at h
  | cons a rest ih =>
    intro m h hq
    rw [List.filter_cons] at h ⊢
    cases hpa : p a with
    | true =>
      simp only [hpa, if_true, List.head?_cons, Option.some_inj] at h
      subst h
      simp [hq]
    | false =>
      have hqa : q a = false := by
        cases hqa : q a with
        | true => rw [himp a hqa] at hpa; exact absurd hpa (by simp)
        | false => rfl
      simp only [hpa, if_false] at h
      simp only [hqa, if_false]
      exact ih h hq

theorem head?_filter_least {p : List Char → Bool} :
    ∀ {l : List (List Char)}, l.Pairwise (fun a b => ltStr a b = true) →
      ∀ {e : List Char}, e ∈ l → p e = true →
        (∀ x ∈ l, p x = true → x = e ∨ ltStr e x = true) →
        (l.filter p).head? = some e := by
  intro l
  induction l with
  | nil => intro _ e he; simp at he
  | cons a rest ih =>
    intro hs e he hpe hleast
    rw [List.pairwise_cons] at hs
    obtain ⟨ha, hrest⟩ := hs
    rw [List.filter_cons]
    cases hpa : p a with
    | true =>
      have hae : a = e := by
        rcases hleast a (List.mem_cons_self a rest) hpa with h | h
        · exact h
        · rcases List.mem_cons.mp he with rfl | hmem
          · rfl
          · have := ltStr_asymm (ha e hmem)
            rw [this] at h
            exact absurd h (by simp)
      simp [hpa, hae]
    | false =>
      have hne : e ≠ a := fun hh => by rw [hh, hpa] at hpe; exact absurd hpe (by simp)
      have hmem : e ∈ rest := by
        rcases List.mem_cons.mp he with rfl | hmem
        · exact absurd rfl hne
        · exact hmem
      rw [if_neg (by simp)]
      exact ih hrest hmem hpe (fun x hx hpx => hleast x (List.mem_cons_of_mem a hx) hpx)

theorem filter_head_isSome {α : Type} {p : α → Bool} :
    ∀ {l : List α} {e : α}, e ∈ l → p e = true → ∃ m, (l.filter p).head? = some m := by
  intro l
  induction l with
  | nil => intro e he; simp at he
  | cons a rest ih =>
    intro e he hpe
    rw [List.filter_cons]
    cases hpa : p a with
    | true => exact ⟨a, by simp⟩
    | false =>
      have hne : e ≠ a := fun hh => by rw [hh, hpa] at hpe; exact absurd hpe (by simp)
      have hmem : e ∈ rest := by
        rcases List.mem_cons.mp he with rfl | hmem
        · exact absurd rfl hne
        · exact hmem
      simpa using ih hmem hpe

theorem lookupRange_eq_filterHead (entries : List (List Char)) (b : List Char) :
    lookupRange entries b = (entries.filter (fun e => b.isPrefixOf e)).head? := by
  unfold lookupRange rangeFrom
  rw [List.filter_filter]
  congr 1
  apply List.filter_congr
  intro e _
  cases hp : b.isPrefixOf e with
  | true => simp [hp, prefix_not_ltStr hp]
  | false => simp [hp]

theorem naive_eq_filterHead {entries : List (List Char)} {b : List Char}
    (hs : entries.Pairwise (fun a c => ltStr a c = true)) :
    naiveSmallestMatch entries b = (entries.filter (fun e => b.isPrefixOf e)).head? := by
  induction entries with
  | nil => rfl
  | cons e rest ih =>
    rw [List.pairwise_cons] at hs
    obtain ⟨he, hrest⟩ := hs
    rw [List.filter_cons]
    cases hpe : b.isPrefixOf e with
    | true =>
      simp only [naiveSmallestMatch, hpe, if_true, ih hrest]
      cases hm : (rest.filter (fun x => b.isPrefixOf x)).head? with
      | none => simp
      | some m =>
        have hmem : m ∈ rest := (List.mem_filter.mp (head?_some_mem hm)).1
        simp [he m hmem]
    | false =>
      simp [naiveSmallestMatch, hpe, ih hrest]

theorem lookupRange_eq_naive {entries : List (List Char)} {b : List Char}
    (hs : entries.Pairwise (fun a c => ltStr a c = true)) :
    lookupRange entries b = naiveSmallestMatch entries b := by
  rw [lookupRange_eq_filterHead, naive_eq_filterHead hs]

theorem update_suggestion_cursor (m : Readline) :
    m.update_suggestion.cursor_pos = m.cursor_pos := by
  unfold Readline.update_suggestion
  split
  · rfl
  · split
    · split <;> rfl
    · rfl

theorem update_suggestion_buffer (m : Readline) :
    m.update_suggestion.buffer = m.buffer := by
  unfold Readline.update_suggestion
  split
  · rfl
  · split
    · split <;> rfl
    · rfl

theorem update_suggestion_entries (m : Readline) :
    m.update_suggestion.dir_entries = m.dir_entries := by
  unfold Readline.update_suggestion
  split
  · rfl
  · split
    · split <;> rfl
    · rfl

theorem update_suggestion_empty (m : Readline) (h : m.buffer = []) :
    m.update_suggestion.suggestion = none := by
  unfold Readline.update_suggestion
  rw [if_pos (by simp [h])]

theorem update_suggestion_prefix (m : Readline) :
    ∀ s, m.update_suggestion.suggestion = some s → m.buffer.isPrefixOf s = true := by
  intro s hs
  unfold Readline.update_suggestion at hs
  split at hs
  · simp at hs
  · split at hs
    · rename_i w hsome
      split at hs
      · rename_i hkeep
        rw [hsome] at hs
        simp only [Option.some_inj] at hs
        exact hs ▸ hkeep
      · rw [lookupRange_eq_filterHead] at hs
        exact head?_filter_pred hs
    · rw [lookupRange_eq_filterHead] at hs
      exact head?_filter_pred hs

theorem update_suggestion_recompute (m : Readline) (hb : ¬m.buffer = [])
    (hstale : ∀ s, m.suggestion = some s → m.buffer.isPrefixOf s = false) :
    m.update_suggestion.suggestion = lookupRange m.dir_entries m.buffer := by
  unfold Readline.update_suggestion
  rw [if_neg (by simp [hb])]
  split
  · rename_i w hsome
    have hw : m.buffer.isPrefixOf w = false := hstale w hsome
    rw [if_neg (by simp [hw])]
  · rfl

theorem inv_update_suggestion (m : Readline) : Inv m.update_suggestion := by
  intro s hs
  rw [update_suggestion_buffer]
  exact update_suggestion_prefix m s hs

/-- Claim C1 counterexample: with index `{"ab", "ac"}`, typing `a`, `c` and
then a backspace leaves the buffer at `"a"` and the suggestion at `"ac"`
(kept because it still starts with the buffer), although the entry `"ab"`
also starts with the buffer and is lexicographically smaller — so after
this buffer-mutating edit the suggestion is not the smallest matching
entry. -/
theorem c1_kept_suggestion_not_smallest :
    (steps [['a', 'b'], ['a', 'c']] [MKey.char 'a', MKey.char 'c', MKey.backspace]).buffer
      = ['a']
    ∧ (steps [['a', 'b'], ['a', 'c']] [MKey.char 'a', MKey.char 'c', MKey.backspace]).suggestion
      = some ['a', 'c']
    ∧ ['a', 'b'] ∈
        (steps [['a', 'b'], ['a', 'c']] [MKey.char 'a', MKey.char 'c', MKey.backspace]).dir_entries
    ∧ (['a'] : List Char).isPrefixOf ['a', 'b'] = true
    ∧ ltStr ['a', 'b'] ['a', 'c'] = true := by
  decide

/-- Claim C1, amended: after `update_suggestion` the suggestion is either
none or starts with the buffer; and whenever the buffer is non-empty and
the previous suggestion was absent or no longer started with the buffer,
the new suggestion is exactly the lexicographically smallest index entry
starting with the buffer (none if no entry matches). A previously valid
suggestion, however, is kept even when a smaller matching entry exists. -/
theorem c1_suggestion_correctness (m : Readline)
    (hsort : m.dir_entries.Pairwise (fun a c => ltStr a c = true)) :
    (m.update_suggestion.suggestion = none
      ∨ ∃ s, m.update_suggestion.suggestion = some s ∧ m.buffer.isPrefixOf s = true)
    ∧ (m.buffer ≠ [] →
        (∀ s, m.suggestion = some s → m.buffer.isPrefixOf s = false) →
        m.update_suggestion.suggestion = naiveSmallestMatch m.dir_entries m.buffer) := by
  constructor
  · cases hs : m.update_suggestion.suggestion with
    | none => exact Or.inl rfl
    | some s => exact Or.inr ⟨s, rfl, update_suggestion_prefix m s hs⟩
  · intro hb hstale
    rw [update_suggestion_recompute m hb hstale]
    exact lookupRange_eq_naive hsort

theorem c1_suggestion_correctness_witness :
    (List.Pairwise (fun a c => ltStr a c = true) [['a', 'b']])
    ∧ ((initModel [['a', 'b']]).update_suggestion.suggestion = none
        ∨ ∃ s, (initModel [['a', 'b']]).update_suggestion.suggestion = some s
            ∧ (initModel [['a', 'b']]).buffer.isPrefixOf s = true) :=
  ⟨by decide, (c1_suggestion_correctness (initModel [['a', 'b']]) (by decide)).1⟩

/-- Claim C3 counterexample: with index `{"ab"}`, typing `a` (suggestion
becomes `"ab"`) and then pressing Enter leaves the buffer empty but the
suggestion still `some "ab"` — Submit does not clear the suggestion. -/
theorem c3_submit_keeps_suggestion :
    (steps [['a', 'b']] [MKey.char 'a', MKey.char '\n']).buffer = []
    ∧ (steps [['a', 'b']] [MKey.char 'a', MKey.char '\n']).suggestion = some ['a', 'b'] := by
  decide

/-- Claim C3, amended: `update_suggestion` does map an empty buffer to no
suggestion, but Submit does not invoke it: processing Enter empties the
buffer and resets the cursor while leaving the suggestion exactly as it
was, so immediately after Submit the buffer is empty and the previous
suggestion (if any) is still present. -/
theorem c3_empty_buffer_suggestion (m : Readline) :
    ((update m (MKey.char '\n')).1.buffer = []
      ∧ (update m (MKey.char '\n')).1.suggestion = m.suggestion)
    ∧ (m.buffer = [] → m.update_suggestion.suggestion = none) :=
  ⟨⟨rfl, rfl⟩, fun h => update_suggestion_empty m h⟩

theorem c3_empty_buffer_suggestion_witness :
    (update (initModel []) (MKey.char '\n')).1.suggestion = (initModel []).suggestion
    ∧ ((initModel []).buffer = [] → (initModel []).update_suggestion.suggestion = none) :=
  ⟨(c3_empty_buffer_suggestion (initModel [])).1.2,
    (c3_empty_buffer_suggestion (initModel [])).2⟩

/-- Claim C5: for every model, Enter (`Key::Char('\n')`) resets the cursor
to the origin, empties the buffer and returns `Some` of the exact prior
buffer content, while every other key event makes `update` return `None`;
in particular submitting an empty buffer returns the empty line with the
cursor at 0. -/
theorem c5_submit_semantics (m : Readline) :
    update m (MKey.char '\n')
      = ({ m with cursor_pos := Position.origin, buffer := [] }, some m.buffer)
    ∧ ∀ k : MKey, k ≠ MKey.char '\n' → (update m k).2 = none := by
  refine ⟨rfl, ?_⟩
  intro k hk
  cases k with
  | char c =>
    have hc : ¬c = '\n' := fun h => hk (by rw [h])
    simp [update, hc]
  | left =>
    simp only [update]
    split <;> rfl
  | right =>
    simp only [update]
    split <;> rfl
  | backspace =>
    simp only [update]
    split
    · split <;> rfl
    · split <;> rfl
  | other => rfl

theorem c5_submit_semantics_witness :
    (update (initModel []) (MKey.char '\n')).2 = some []
    ∧ (update (initModel []) MKey.left).2 = none := by
  refine ⟨?_, (c5_submit_semantics (initModel [])).2 MKey.left (by decide)⟩
  rw [(c5_submit_semantics (initModel [])).1]
  rfl

/-- Claim C6: on the ordered entry set, the range query (entries `≥`
buffer, scanned ascending, first one starting with the buffer) returns
exactly what the naive linear scan for the lexicographically smallest
matching entry returns; and if the first entry `≥` the buffer does not
start with it, no entry in the whole index does. -/
theorem c6_range_query_equiv (entries : List (List Char)) (b : List Char)
    (hsort : entries.Pairwise (fun a c => ltStr a c = true)) (hb : b ≠ []) :
    lookupRange entries b = naiveSmallestMatch entries b
    ∧ (∀ first, (rangeFrom entries b).head? = some first → b.isPrefixOf first = false →
        ∀ e ∈ entries, b.isPrefixOf e = false) := by
  refine ⟨lookupRange_eq_naive hsort, ?_⟩
  intro first hfirst hnp e hmem
  by_contra hpe
  rw [Bool.not_eq_false] at hpe
  have hge : ltStr e b = false := prefix_not_ltStr hpe
  have hmem' : e ∈ rangeFrom entries b := by
    unfold rangeFrom
    exact List.mem_filter.mpr ⟨hmem, by simp [hge]⟩
  have hfge : ltStr first b = false := by
    have h2 := (List.mem_filter.mp (by
      have := head?_some_mem hfirst
      unfold rangeFrom at this
      exact this)).2
    simpa using h2
  have hpair : (rangeFrom entries b).Pairwise (fun a c => ltStr a c = true) := by
    unfold rangeFrom
    exact List.Pairwise.sublist (List.filter_sublist entries) hsort
  have hef : ltStr e first = true := lex_key hpe hfge hnp
  cases hl : rangeFrom entries b with
  | nil => rw [hl] at hfirst; simp at hfirst
  | cons x xs =>
    rw [hl] at hfirst
    simp only [List.head?_cons, Option.some_inj] at hfirst
    rw [hl] at hmem' hpair
    rw [List.pairwise_cons] at hpair
    rcases List.mem_cons.mp hmem' with heq | hmem2
    · rw [← hfirst, ← heq, hpe] at hnp
      exact absurd hnp (by simp)
    · have hfe : ltStr first e = true := by
        rw [← hfirst]
        exact hpair.1 e hmem2
      rw [ltStr_asymm hfe] at hef
      exact absurd hef (by simp)

theorem c6_range_query_equiv_witness :
    (List.Pairwise (fun a c => ltStr a c = true) [['a', 'b'], ['a', 'c']])
    ∧ (['a'] : List Char) ≠ []
    ∧ lookupRange [['a', 'b'], ['a', 'c']] ['a']
        = naiveSmallestMatch [['a', 'b'], ['a', 'c']] ['a'] :=
  ⟨by decide, by decide,
    (c6_range_query_equiv [['a', 'b'], ['a', 'c']] ['a'] (by decide) (by decide)).1⟩

/-- Claim C9: when the submitted line has no token, or the process runner
cannot locate/execute the command token, the run loop echoes the raw
submitted line unchanged (between CRLFs, followed by the cursor-save
marker) instead of dropping it; the line is split on whitespace into a
command token and arguments before invocation. -/
theorem c9_echo_when_not_executable
    (runner : List Char → List (List Char) → Option ProcOutput) (input : List Char)
    (h : splitWhitespace input = []
      ∨ ∃ c rest, splitWhitespace input = c :: rest ∧ runner c rest = none) :
    handleSubmit runner input
      = [TermWrite.text (['\r', '\n'] ++ input ++ ['\r', '\n']), TermWrite.saveCursor] := by
  rcases h with h | ⟨c, rest, heq, hr⟩
  · simp [handleSubmit, h]
  · simp [handleSubmit, heq, hr]

theorem c9_echo_when_not_executable_witness :
    handleSubmit (fun _ _ => none) ['f', 'o', 'o']
      = [TermWrite.text (['\r', '\n'] ++ ['f', 'o', 'o'] ++ ['\r', '\n']),
         TermWrite.saveCursor] :=
  c9_echo_when_not_executable (fun _ _ => none) ['f', 'o', 'o']
    (Or.inr ⟨['f', 'o', 'o'], [], by decide, rfl⟩)

/-- Claim C10: every call to `update` preserves the invariant that an
active suggestion has the current buffer as a prefix (so its length is at
least the buffer's, keeping `render`'s slicing of the suggestion at the
buffer's length in bounds); Submit preserves it too, since the emptied
buffer is a prefix of the retained suggestion. -/
theorem c10_update_preserves_inv (m : Readline) (k : MKey) (h : Inv m) :
    Inv (update m k).1
    ∧ ∀ s, (update m k).1.suggestion = some s → (update m k).1.buffer.length ≤ s.length := by
  have main : Inv (update m k).1 := by
    cases k with
    | char c =>
      by_cases hc : c = '\n'
      · subst hc
        intro s _
        simp only [update]
        rw [if_pos trivial]
        exact List.isPrefixOf_nil_left
      · intro s hs
        simp only [update, if_neg hc] at hs ⊢
        exact inv_update_suggestion _ s hs
    | left =>
      simp only [update]
      split
      · exact fun s hs => h s hs
      · exact h
    | right =>
      simp only [update]
      split
      · exact fun s hs => h s hs
      · exact h
    | backspace =>
      simp only [update]
      split
      · split
        · exact h
        · exact fun s hs => inv_update_suggestion _ s hs
      · split
        · exact fun s hs => inv_update_suggestion _ s hs
        · exact h
    | other => exact h
  refine ⟨main, fun s hs => ?_⟩
  exact List.IsPrefix.length_le (List.isPrefixOf_iff_prefix.mp (main s hs))

theorem c10_update_preserves_inv_witness :
    Inv (initModel []) ∧ Inv (update (initModel []) MKey.left).1 :=
  have h0 : Inv (initModel []) := fun _ hs => nomatch hs
  ⟨h0, (c10_update_preserves_inv (initModel []) MKey.left h0).1⟩

theorem update_char_nil (m : Readline) (c : Char) (hc : ¬c = '\n')
    (hm : m.dir_entries = []) (hs : m.suggestion = none) :
    (update m (MKey.char c)).1
      = { cursor_pos := ⟨w16 (m.cursor_pos.x + 1), m.cursor_pos.y⟩,
          buffer := m.buffer ++ [c], dir_entries := [], suggestion := none } := by
  simp [update, hc, Readline.update_suggestion, hs, hm, lookupRange, rangeFrom]

theorem steps_replicate_char (n : Nat) :
    steps [] (List.replicate n (MKey.char 'a'))
      = { cursor_pos := ⟨n % 65536, 0⟩, buffer := List.replicate n 'a',
          dir_entries := [], suggestion := none } := by
  induction n with
  | zero => rfl
  | succ n ih =>
    rw [List.replicate_succ' n (MKey.char 'a'), List.replicate_succ' n 'a']
    unfold steps at ih ⊢
    rw [List.foldl_append, ih]
    simp only [List.foldl_cons, List.foldl_nil]
    rw [update_char_nil _ 'a' (by decide) rfl rfl]
    simp [w16, Nat.mod_add_mod]

theorem steps_replicate_char_x (n : Nat) :
    (steps [] (List.replicate n (MKey.char 'a'))).cursor_pos.x = n % 65536 := by
  rw [steps_replicate_char]

theorem steps_replicate_char_buffer (n : Nat) :
    (steps [] (List.replicate n (MKey.char 'a'))).buffer = List.replicate n 'a' := by
  rw [steps_replicate_char]

theorem steps_replicate_char_sugg (n : Nat) :
    (steps [] (List.replicate n (MKey.char 'a'))).suggestion = none := by
  rw [steps_replicate_char]

theorem replicate_isEmpty (n : Nat) (c : Char) (h : n ≠ 0) :
    (List.replicate n c).isEmpty = false := by
  cases n with
  | zero => exact absurd rfl h
  | succ m => rw [List.replicate_succ]; rfl

theorem update_backspace_at_end_x (m : Readline)
    (hx : m.cursor_pos.x = w16 m.buffer.length) (hne : m.buffer.isEmpty = false) :
    (update m MKey.backspace).1.cursor_pos.x = wdec m.cursor_pos.x := by
  simp only [update]
  rw [if_pos hx, if_neg (by rw [hne]; simp)]
  rw [update_suggestion_cursor]

theorem displayedLen_none (m : Readline) (h : m.suggestion = none) :
    displayedLen m = m.buffer.length := by
  unfold displayedLen
  rw [h]

theorem cursor_back_eq (m : Readline) :
    cursor_back m = (w16 (displayedLen m) + 65536 - m.cursor_pos.x) % 65536 := rfl

theorem renderMove_eq (m : Readline) :
    renderMove m = if 0 < cursor_back m then some (cursor_back m) else none := rfl

/-- Claim C2 at the failing input: after typing `2 ^ 16` characters the
`u16` cursor has wrapped to `0` while the buffer holds `65536` characters,
so the guard of the at-end Backspace branch (`x == len as u16`, i.e.
`0 == 0`) passes with a non-empty buffer and the decrement `x -= 1`
executes with `cursor_pos.x = 0`, wrapping to `65535` (a panic in debug
builds; the preceding increment `x += 1` already panics there). -/
theorem c2_cursor_underflow_at_65536 :
    (steps [] (List.replicate 65536 (MKey.char 'a'))).cursor_pos.x = 0
    ∧ (steps [] (List.replicate 65536 (MKey.char 'a'))).buffer.length = 65536
    ∧ (update (steps [] (List.replicate 65536 (MKey.char 'a'))) MKey.backspace).1.cursor_pos.x
        = 65535 := by
  refine ⟨?_, ?_, ?_⟩
  · rw [steps_replicate_char_x]
  · rw [steps_replicate_char_buffer, List.length_replicate]
  · have h1 : (steps [] (List.replicate 65536 (MKey.char 'a'))).cursor_pos.x
        = w16 (steps [] (List.replicate 65536 (MKey.char 'a'))).buffer.length := by
      rw [steps_replicate_char_x, steps_replicate_char_buffer, List.length_replicate]
      decide
    have h2 : (steps [] (List.replicate 65536 (MKey.char 'a'))).buffer.isEmpty = false := by
      rw [steps_replicate_char_buffer]
      exact replicate_isEmpty 65536 'a' (by decide)
    rw [update_backspace_at_end_x _ h1 h2, steps_replicate_char_x]
    decide

/-- Claim C4 at the failing input: after a sequence of `2 ^ 16` printable
characters from the empty buffer the final buffer is indeed the
concatenation of the characters in order, but the final `u16` cursor has
wrapped to `0` and is not equal to the buffer length `65536`. -/
theorem c4_cursor_differs_from_length_at_65536 :
    (steps [] (List.replicate 65536 (MKey.char 'a'))).buffer = List.replicate 65536 'a'
    ∧ (steps [] (List.replicate 65536 (MKey.char 'a'))).cursor_pos.x = 0
    ∧ (steps [] (List.replicate 65536 (MKey.char 'a'))).buffer.length = 65536
    ∧ (steps [] (List.replicate 65536 (MKey.char 'a'))).cursor_pos.x
        ≠ (steps [] (List.replicate 65536 (MKey.char 'a'))).buffer.length := by
  refine ⟨steps_replicate_char_buffer 65536, ?_, ?_, ?_⟩
  · rw [steps_replicate_char_x]
  · rw [steps_replicate_char_buffer, List.length_replicate]
  · rw [steps_replicate_char_x, steps_replicate_char_buffer, List.length_replicate]
    decide

/-- Claim C7 at the failing input: in the reachable state after typing
`2 ^ 16` characters (no suggestion active), the displayed length is
`65536` and the cursor column is `0`, so the claimed move amount
`displayed length - cursor.x` is `65536`; but `render` computes the
amount through the `as u16` cast, obtaining `0`, and emits no move at
all. -/
theorem c7_cursor_back_truncated_at_65536 :
    displayedLen (steps [] (List.replicate 65536 (MKey.char 'a'))) = 65536
    ∧ (steps [] (List.replicate 65536 (MKey.char 'a'))).cursor_pos.x = 0
    ∧ cursor_back (steps [] (List.replicate 65536 (MKey.char 'a'))) = 0
    ∧ renderMove (steps [] (List.replicate 65536 (MKey.char 'a'))) = none
    ∧ displayedLen (steps [] (List.replicate 65536 (MKey.char 'a')))
        - (steps [] (List.replicate 65536 (MKey.char 'a'))).cursor_pos.x = 65536 := by
  have hdl : displayedLen (steps [] (List.replicate 65536 (MKey.char 'a'))) = 65536 := by
    rw [displayedLen_none _ (steps_replicate_char_sugg 65536),
      steps_replicate_char_buffer, List.length_replicate]
  refine ⟨hdl, ?_, ?_, ?_, ?_⟩
  · rw [steps_replicate_char_x]
  · rw [cursor_back_eq, hdl, steps_replicate_char_x]
    decide
  · rw [renderMove_eq, cursor_back_eq, hdl, steps_replicate_char_x]
    decide
  · rw [hdl, steps_replicate_char_x]

theorem prefix_append_weaken {a b x : List Char} (h : (a ++ b).isPrefixOf x = true) :
    a.isPrefixOf x = true := by
  rw [List.isPrefixOf_iff_prefix] at h ⊢
  exact (List.prefix_append a b).trans h

theorem steps_append_one (entries : List (List Char)) (evs : List MKey) (k : MKey) :
    steps entries (evs ++ [k]) = (update (steps entries evs) k).1 := by
  unfold steps
  rw [List.foldl_append]
  rfl

theorem update_char_eq (m : Readline) (c : Char) (hc : ¬c = '\n') :
    (update m (MKey.char c)).1
      = Readline.update_suggestion
          { m with buffer := m.buffer ++ [c],
                   cursor_pos := { m.cursor_pos with x := w16 (m.cursor_pos.x + 1) } } := by
  simp only [update]
  rw [if_neg hc]

theorem update_suggestion_none_lookup (m : Readline) (E : List (List Char)) (b : List Char)
    (hent : m.dir_entries = E) (hbuf : m.buffer = b) (hb : ¬b = [])
    (hs : m.suggestion = none) :
    m.update_suggestion.suggestion = (E.filter (fun x => b.isPrefixOf x)).head? := by
  have hstale : ∀ s, m.suggestion = some s → m.buffer.isPrefixOf s = false := by
    intro s h
    rw [hs] at h
    exact absurd h (by simp)
  rw [update_suggestion_recompute m (by rw [hbuf]; exact hb) hstale,
    lookupRange_eq_filterHead, hent, hbuf]

theorem update_suggestion_typing (m : Readline) (c : Char) (p : List Char)
    (E : List (List Char)) (hent : m.dir_entries = E) (hbuf : m.buffer = p ++ [c])
    (hsug : m.suggestion = (E.filter (fun x => p.isPrefixOf x)).head?) :
    m.update_suggestion.suggestion
      = (E.filter (fun x => (p ++ [c]).isPrefixOf x)).head? := by
  unfold Readline.update_suggestion
  rw [if_neg (by rw [hbuf]; simp)]
  split
  · rename_i s hsome
    split
    · rename_i hkeep
      have hhead : (E.filter (fun x => p.isPrefixOf x)).head? = some s := by
        rw [← hsug, hsome]
      have himp : ∀ x, (fun x => (p ++ [c]).isPrefixOf x) x = true →
          (fun x => p.isPrefixOf x) x = true := fun x hx => prefix_append_weaken hx
      have hkeep' : (p ++ [c]).isPrefixOf s = true := by rw [← hbuf]; exact hkeep
      rw [hsome]
      exact (head?_filter_strengthen himp hhead hkeep').symm
    · rw [lookupRange_eq_filterHead, hent, hbuf]
  · rw [lookupRange_eq_filterHead, hent, hbuf]

theorem typing_state (entries : List (List Char)) (p : List Char) :
    p ≠ [] → '\n' ∉ p →
      (steps entries (p.map MKey.char)).buffer = p
      ∧ (steps entries (p.map MKey.char)).dir_entries = entries
      ∧ (steps entries (p.map MKey.char)).suggestion
          = (entries.filter (fun x => p.isPrefixOf x)).head? := by
  induction p using List.reverseRecOn with
  | nil => intro h _; exact absurd rfl h
  | append_singleton q c ih =>
    intro _ hnl
    have hc : ¬c = '\n' := by
      intro h
      apply hnl
      rw [← h]
      exact List.mem_append_right q (by simp)
    have hnlq : '\n' ∉ q := fun hm => hnl (List.mem_append_left [c] hm)
    simp only [List.map_append, List.map_cons, List.map_nil, steps_append_one]
    rw [update_char_eq _ c hc]
    by_cases hq : q = []
    · subst hq
      simp only [List.map_nil, List.nil_append]
      refine ⟨?_, ?_, ?_⟩
      · rw [update_suggestion_buffer]
        rfl
      · rw [update_suggestion_entries]
        rfl
      · exact update_suggestion_none_lookup _ entries [c] rfl rfl (by simp) rfl
    · obtain ⟨hbuf, hent, hsug⟩ := ih hq hnlq
      refine ⟨?_, ?_, ?_⟩
      · rw [update_suggestion_buffer]
        show (steps entries (q.map MKey.char)).buffer ++ [c] = q ++ [c]
        rw [hbuf]
      · rw [update_suggestion_entries]
        show (steps entries (q.map MKey.char)).dir_entries = entries
        exact hent
      · exact update_suggestion_typing _ c q entries hent
          (by show (steps entries (q.map MKey.char)).buffer ++ [c] = q ++ [c]; rw [hbuf]) hsug

/-- Claim C8: typing a known index entry character-by-character (from the
freshly constructed model) yields, at every prefix length at which the
matching entry is unique, that entry as the suggestion; and once the buffer
equals the entry exactly, the suggestion still equals that entry (it
collapses onto the exact match instead of disappearing). -/
theorem c8_typing_entry (entries : List (List Char)) (e : List Char)
    (hsort : entries.Pairwise (fun a c => ltStr a c = true))
    (he : e ∈ entries) (hnl : '\n' ∉ e) :
    (∀ k, 1 ≤ k → k ≤ e.length →
        (∀ x ∈ entries, (e.take k).isPrefixOf x = true → x = e) →
        (steps entries ((e.take k).map MKey.char)).suggestion = some e)
    ∧ (1 ≤ e.length → (steps entries (e.map MKey.char)).suggestion = some e) := by
  constructor
  · intro k hk1 hk2 huniq
    have hlen : (e.take k).length = k := by
      rw [List.length_take]
      exact min_eq_left hk2
    have hp : e.take k ≠ [] := by
      intro h
      rw [h] at hlen
      simp at hlen
      omega
    have hnl' : '\n' ∉ e.take k := fun hmem => hnl (List.take_subset k e hmem)
    obtain ⟨hbuf, hent, hsug⟩ := typing_state entries (e.take k) hp hnl'
    rw [hsug]
    have hpre : (e.take k).isPrefixOf e = true :=
      List.isPrefixOf_iff_prefix.mpr (List.take_prefix k e)
    obtain ⟨m, hm⟩ := filter_head_isSome he hpre
    rw [hm]
    have hmmem := List.mem_filter.mp (head?_some_mem hm)
    rw [huniq m hmmem.1 hmmem.2]
  · intro hlenpos
    have hp : e ≠ [] := by
      intro h
      rw [h] at hlenpos
      simp at hlenpos
    obtain ⟨hbuf, hent, hsug⟩ := typing_state entries e hp hnl
    rw [hsug]
    apply head?_filter_least hsort he (List.isPrefixOf_iff_prefix.mpr (List.prefix_refl e))
    intro x hx hpx
    by_cases hxe : x = e
    · exact Or.inl hxe
    · exact Or.inr (prefix_proper_ltStr hpx (fun h => hxe h.symm))

theorem c8_typing_entry_witness :
    (steps [[('a' : Char), 'b']] ((['a', 'b'] : List Char).map MKey.char)).suggestion
      = some ['a', 'b'] :=
  (c8_typing_entry [['a', 'b']] ['a', 'b'] (by decide) (by decide) (by decide)).2
    (by decide)

end Ppsh
